import Mathlib

/-!
Verification of the event-detection / strategy-selection / backtest pipeline
(`data_filter.py`, `data_test.py`): a shallow embedding of the pandas
transformations into Lean, with theorems settling the specification claims.

Tables are embedded as lists of records.  Float columns that can carry the
IEEE special values produced by pandas (NaN for missing data, ±inf from
division by zero) are embedded by the type `FV` below; raw CSV cells that may
be missing are `Option` values; exact numeric content is idealised as `ℚ`.
Dates appear in two granularities, matching how the source manipulates them:
day-indexed integers (ordering and `Timedelta(days=...)` arithmetic) and
calendar dates `Date` (ordering and `DateOffset(months=...)` arithmetic).
-/

/- The batteries implementation of `ℚ` marks its arithmetic irreducible,
which blocks `decide`-style evaluation of the embedded pipeline on concrete
tables; the kernel reduces these definitions fine, so restore them to the
ordinary reducibility setting. -/
set_option allowUnsafeReducibility true in
attribute [semireducible] Rat.add Rat.sub Rat.mul Rat.div Rat.inv

/-- A pandas/numpy float cell: a rational value, `±inf`, or `NaN`
(`NaN` doubles as the missing-data marker, as in pandas). -/
inductive FV where
  | nan : FV
  | inf : FV
  | ninf : FV
  | val : ℚ → FV
deriving DecidableEq, Repr

namespace FV

/-- Is this cell pandas-missing (NaN)? -/
def isNan : FV → Bool
  | nan => true
  | _ => false

/-- IEEE negation. -/
def neg : FV → FV
  | nan => nan
  | inf => ninf
  | ninf => inf
  | val q => val (-q)

/-- IEEE addition: NaN propagates, `inf + (-inf) = NaN`. -/
def add : FV → FV → FV
  | nan, _ => nan
  | _, nan => nan
  | inf, ninf => nan
  | ninf, inf => nan
  | inf, _ => inf
  | ninf, _ => ninf
  | val _, inf => inf
  | val _, ninf => ninf
  | val a, val b => val (a + b)

/-- IEEE subtraction. -/
def sub (a b : FV) : FV := a.add b.neg

/-- IEEE multiplication: NaN propagates, `±inf × 0 = NaN`, signs multiply. -/
def mul : FV → FV → FV
  | nan, _ => nan
  | _, nan => nan
  | inf, inf => inf
  | inf, ninf => ninf
  | ninf, inf => ninf
  | ninf, ninf => inf
  | inf, val q => if 0 < q then inf else if q < 0 then ninf else nan
  | ninf, val q => if 0 < q then ninf else if q < 0 then inf else nan
  | val q, inf => if 0 < q then inf else if q < 0 then ninf else nan
  | val q, ninf => if 0 < q then ninf else if q < 0 then inf else nan
  | val a, val b => val (a * b)

/-- IEEE strict order: any comparison with NaN is false, `-inf < val q < inf`. -/
def lt : FV → FV → Bool
  | nan, _ => false
  | _, nan => false
  | inf, _ => false
  | _, inf => true
  | _, ninf => false
  | ninf, _ => true
  | val a, val b => decide (a < b)

/-- `a > b` as pandas evaluates a float comparison. -/
def gt (a b : FV) : Bool := lt b a

/-- Division by a natural count (as used by `mean`): the count is positive
whenever this is applied, so the sign of an infinity is preserved. -/
def divNat : FV → ℕ → FV
  | nan, _ => nan
  | inf, _ => inf
  | ninf, _ => ninf
  | val q, n => val (q / (n : ℚ))

end FV

/-- Float division of two actual (non-NaN, finite) cell values, as numpy
performs it: division by zero yields `±inf` by the numerator's sign and
`NaN` for `0/0`. -/
def fqdiv (a b : ℚ) : FV :=
  if b = 0 then
    if 0 < a then FV.inf else if a < 0 then FV.ninf else FV.nan
  else FV.val (a / b)

/-- `pandas mean` with its default `skipna=True`: NaN entries are excluded;
the mean of an all-NaN (or empty) group is NaN. -/
def fmean (l : List FV) : FV :=
  let vs := l.filter (fun v => !v.isNan)
  if vs.isEmpty then FV.nan
  else (vs.foldl FV.add (FV.val 0)).divNat vs.length

/-- `Series.cumprod` with its default `skipna=True`, started from the
accumulator `acc`: a NaN entry stays NaN in place and is skipped by the
running product. -/
def cumprodSkip (acc : FV) : List FV → List FV
  | [] => []
  | x :: rest =>
    if x.isNan then FV.nan :: cumprodSkip acc rest
    else (acc.mul x) :: cumprodSkip (acc.mul x) rest

/-- Generic fact about `List.find?` over a `Pairwise`-ordered list: the hit is
related by `R` to every later qualifying element, hence (for an order `R`)
it is the `R`-least qualifying element. -/
theorem find_pairwise_min {α : Type} {R : α → α → Prop} {p : α → Bool}
    {l : List α} {x : α} (hp : l.Pairwise R) (hf : l.find? p = some x) :
    ∀ y ∈ l, p y = true → x = y ∨ R x y := by
  induction l with
  | nil => simp at hf
  | cons a t ih =>
    rcases List.pairwise_cons.mp hp with ⟨ha, ht⟩
    by_cases hpa : p a = true
    · rw [List.find?_cons_of_pos _ hpa] at hf
      cases hf
      intro y hy _
      rcases hy with _ | hyt
      · exact Or.inl rfl
      · exact Or.inr (ha _ (by assumption))
    · rw [List.find?_cons_of_neg _ hpa] at hf
      intro y hy hpy
      rcases hy with _ | hyt
      · exact absurd hpy hpa
      · exact ih ht hf y (by assumption) hpy

/-- Generic fact about `filterMap`: if producing an output satisfying `q`
forces the source element to satisfy `p`, output `q`-counts are bounded by
input `p`-counts. -/
theorem countP_filterMap_le {α β : Type} (g : α → Option β)
    (p : α → Bool) (q : β → Bool)
    (h : ∀ a b, g a = some b → q b = true → p a = true) :
    ∀ l : List α, (l.filterMap g).countP q ≤ l.countP p := by
  intro l
  induction l with
  | nil => simp
  | cons a t ih =>
    cases hga : g a with
    | none =>
      simp only [List.filterMap_cons, hga, List.countP_cons]
      omega
    | some b =>
      simp only [List.filterMap_cons, hga, List.countP_cons]
      by_cases hqb : q b = true
      · have := h a b hga hqb
        simp only [hqb, this, if_true]
        omega
      · simp only [Bool.not_eq_true] at hqb
        simp only [hqb, Bool.false_eq_true, if_false]
        omega

/-! ## Gap Event Detector (`data_filter.py`, `BenchmarkDataConstructor.filter_data`)

Dates at this stage are only ordered and never undergo calendar arithmetic,
so they are embedded as integers (days). -/

/-- A raw daily-trading row (`TRD_Dalyr` shards after concatenation): price
cells read from CSV may be missing. -/
structure StkRaw where
  Stkcd : ℕ
  Trddt : ℤ
  Hiprc : Option ℚ
  Loprc : Option ℚ
  Clsprc : Option ℚ
deriving DecidableEq, Repr

/-- A complete trading row, as survives `stk_data.dropna()`. -/
structure StkRow where
  Stkcd : ℕ
  Trddt : ℤ
  Hiprc : ℚ
  Loprc : ℚ
  Clsprc : ℚ
deriving DecidableEq, Repr

/-- `stk_data.dropna()`: keep exactly the rows with no missing cell. -/
def stkDropna (l : List StkRaw) : List StkRow :=
  l.filterMap (fun r =>
    match r.Hiprc, r.Loprc, r.Clsprc with
    | some h, some lo, some c => some ⟨r.Stkcd, r.Trddt, h, lo, c⟩
    | _, _, _ => none)

/-- A raw disclosure row (`IAR_Rept`): report type / profit cells may be
missing. -/
structure PftRaw where
  Stkcd : ℕ
  Annodt : ℤ
  Reptyp : Option ℕ
  Profita : Option ℚ
deriving DecidableEq, Repr

/-- A complete disclosure row, as survives `pft_data.dropna()`. -/
structure PftRow where
  Stkcd : ℕ
  Annodt : ℤ
  Reptyp : ℕ
  Profita : ℚ
deriving DecidableEq, Repr

/-- `pft_data.dropna()`. -/
def pftDropna (l : List PftRaw) : List PftRow :=
  l.filterMap (fun r =>
    match r.Reptyp, r.Profita with
    | some t, some p => some ⟨r.Stkcd, r.Annodt, t, p⟩
    | _, _ => none)

/-- `sort_values(['Stkcd', 'Trddt'])` comparison. -/
def stkLex (a b : StkRow) : Prop :=
  a.Stkcd < b.Stkcd ∨ (a.Stkcd = b.Stkcd ∧ a.Trddt ≤ b.Trddt)

instance : DecidableRel stkLex := fun a b => by unfold stkLex; infer_instance

instance : IsTotal StkRow stkLex := ⟨by intro a b; unfold stkLex; omega⟩

instance : IsTrans StkRow stkLex := ⟨by intro a b c; unfold stkLex; omega⟩

/-- A trading row annotated with `prev_Hiprc`, the lagged high. -/
structure StkP where
  row : StkRow
  prevHigh : Option ℚ
deriving DecidableEq, Repr

/-- `stk_data.groupby('Stkcd')['Hiprc'].shift(1)` on the
`(Stkcd, Trddt)`-sorted frame: each row receives the previous row's high
when that row belongs to the same instrument (groups are contiguous after
the sort), and null at the head of each group. -/
def addPrevHigh (prev : Option StkRow) : List StkRow → List StkP
  | [] => []
  | r :: rest =>
    ⟨r, match prev with
        | some p => if p.Stkcd = r.Stkcd then some p.Hiprc else none
        | none => none⟩ :: addPrevHigh (some r) rest

/-- `sort_values('Trddt')` comparison on annotated rows. -/
def trddtLe (a b : StkP) : Prop := a.row.Trddt ≤ b.row.Trddt

instance : DecidableRel trddtLe := fun a b => by unfold trddtLe; infer_instance

instance : IsTotal StkP trddtLe := ⟨by intro a b; unfold trddtLe; omega⟩

instance : IsTrans StkP trddtLe := ⟨by intro a b c; unfold trddtLe; omega⟩

/-- `sort_values('Annodt')` comparison on complete disclosures. -/
def pftAnnLe (a b : PftRow) : Prop := a.Annodt ≤ b.Annodt

instance : DecidableRel pftAnnLe := fun a b => by unfold pftAnnLe; infer_instance

instance : IsTotal PftRow pftAnnLe := ⟨by intro a b; unfold pftAnnLe; omega⟩

instance : IsTrans PftRow pftAnnLe := ⟨by intro a b c; unfold pftAnnLe; omega⟩

/-- The trading side handed to `pd.merge_asof`: complete rows, lagged high
attached under the `(Stkcd, Trddt)` sort, then re-sorted by `Trddt`. -/
def stkPrepared (stk : List StkRaw) : List StkP :=
  List.insertionSort trddtLe (addPrevHigh none (List.insertionSort stkLex (stkDropna stk)))

/-- One `pd.merge_asof(..., by='Stkcd', direction='forward')` lookup: the
first row of the `Trddt`-sorted trading table with the same instrument and
`Trddt ≥ Annodt`; `none` when no such session exists (pandas fills NaN). -/
def asofForward (stkP : List StkP) (p : PftRow) : Option StkP :=
  stkP.find? (fun s => decide (s.row.Stkcd = p.Stkcd ∧ p.Annodt ≤ s.row.Trddt))

/-- An output row of `filter_data`
(`['Stkcd','Reptyp','Annodt','Trddt','Loprc','prev_Hiprc','gap_pct']`).
`prevHigh` keeps the `Option` type of its column; `gap` is a float cell. -/
structure GapOut where
  Stkcd : ℕ
  Reptyp : ℕ
  Annodt : ℤ
  Trddt : ℤ
  Loprc : ℚ
  prevHigh : Option ℚ
  gap : FV
deriving DecidableEq, Repr

/-- The row-level filter and gap computation of `filter_data` on one merged
row `(disclosure, matched session)`: keep it iff `Loprc > prev_Hiprc` (a
comparison against a NaN cell — unmatched disclosure or null lagged high —
is false), and attach `gap_pct = (Loprc - prev_Hiprc) / prev_Hiprc * 100`. -/
def gapMatchRow (p : PftRow) (o : Option StkP) : Option GapOut :=
  match o with
  | some s =>
    match s.prevHigh with
    | some h =>
      if h < s.row.Loprc then
        some ⟨p.Stkcd, p.Reptyp, p.Annodt, s.row.Trddt, s.row.Loprc,
              some h, (fqdiv (s.row.Loprc - h) h).mul (FV.val 100)⟩
      else none
    | none => none
  | none => none

/-- `BenchmarkDataConstructor.filter_data`: dropna both inputs, lag the highs,
as-of-forward match each disclosure to its first trading session, keep rows
with `Loprc > prev_Hiprc` (false against NaN), and attach
`gap_pct = (Loprc - prev_Hiprc) / prev_Hiprc * 100`. -/
def filter_data (stk : List StkRaw) (pft : List PftRaw) : List GapOut :=
  let stkP := stkPrepared stk
  let merged := (List.insertionSort pftAnnLe (pftDropna pft)).map
    (fun p => (p, asofForward stkP p))
  merged.filterMap (fun m => gapMatchRow m.1 m.2)

/-- Stripping the lag annotation recovers the underlying rows. -/
theorem addPrevHigh_map_row (prev : Option StkRow) (l : List StkRow) :
    (addPrevHigh prev l).map (·.row) = l := by
  induction l generalizing prev with
  | nil => rfl
  | cons r rest ih => simp [addPrevHigh, ih]

/-- Membership in the prepared trading table is membership in the complete
rows, up to the lag annotation. -/
theorem mem_stkPrepared {stk : List StkRaw} {s : StkP}
    (h : s ∈ stkPrepared stk) : s.row ∈ stkDropna stk := by
  have h1 : s ∈ addPrevHigh none (List.insertionSort stkLex (stkDropna stk)) :=
    (List.perm_insertionSort trddtLe _).mem_iff.mp h
  have h2 : s.row ∈ (addPrevHigh none (List.insertionSort stkLex (stkDropna stk))).map (·.row) :=
    List.mem_map_of_mem _ h1
  rw [addPrevHigh_map_row] at h2
  exact (List.perm_insertionSort stkLex _).mem_iff.mp h2

/-- Conversely, every complete trading row appears (annotated) in the
prepared table. -/
theorem stkDropna_mem_prepared {stk : List StkRaw} {r : StkRow}
    (h : r ∈ stkDropna stk) : ∃ s ∈ stkPrepared stk, s.row = r := by
  have h1 : r ∈ List.insertionSort stkLex (stkDropna stk) :=
    (List.perm_insertionSort stkLex _).mem_iff.mpr h
  have h2 : r ∈ (addPrevHigh none (List.insertionSort stkLex (stkDropna stk))).map (·.row) := by
    rw [addPrevHigh_map_row]; exact h1
  rcases List.mem_map.mp h2 with ⟨s, hs, hsr⟩
  exact ⟨s, (List.perm_insertionSort trddtLe _).mem_iff.mpr hs, hsr⟩

/-- Destructuring `gapMatchRow`: an emitted row records the disclosure's key
fields and a matched session with a non-null lagged high below its low. -/
theorem gapMatchRow_elim {p : PftRow} {o : Option StkP} {r : GapOut}
    (hG : gapMatchRow p o = some r) :
    ∃ s h, o = some s ∧ s.prevHigh = some h ∧ h < s.row.Loprc ∧
      r = ⟨p.Stkcd, p.Reptyp, p.Annodt, s.row.Trddt, s.row.Loprc,
           some h, (fqdiv (s.row.Loprc - h) h).mul (FV.val 100)⟩ := by
  cases o with
  | none => exact absurd hG (by simp [gapMatchRow])
  | some s =>
    cases hph : s.prevHigh with
    | none =>
      rw [gapMatchRow.eq_def] at hG
      simp only [hph] at hG
      exact absurd hG (by simp)
    | some h =>
      rw [gapMatchRow.eq_def] at hG
      simp only [hph] at hG
      by_cases hlt : h < s.row.Loprc
      · rw [if_pos hlt] at hG
        exact ⟨s, h, rfl, hph, hlt, (Option.some.inj hG).symm⟩
      · rw [if_neg hlt] at hG
        exact absurd hG (by simp)

/-- Membership in the detector's output comes from a complete disclosure, a
successful as-of-forward match, and the gap filter. -/
theorem filter_data_mem_destruct {stk : List StkRaw} {pft : List PftRaw}
    {r : GapOut} (hr : r ∈ filter_data stk pft) :
    ∃ p s h, p ∈ List.insertionSort pftAnnLe (pftDropna pft) ∧
      asofForward (stkPrepared stk) p = some s ∧
      s.prevHigh = some h ∧ h < s.row.Loprc ∧
      r = ⟨p.Stkcd, p.Reptyp, p.Annodt, s.row.Trddt, s.row.Loprc,
           some h, (fqdiv (s.row.Loprc - h) h).mul (FV.val 100)⟩ := by
  simp only [filter_data] at hr
  rcases List.mem_filterMap.mp hr with ⟨m, hm, hgm⟩
  rcases List.mem_map.mp hm with ⟨p, hp, hpe⟩
  subst hpe
  rcases gapMatchRow_elim hgm with ⟨s, h, ho, hph, hlt, hre⟩
  exact ⟨p, s, h, hp, ho, hph, hlt, hre⟩

/-- C1: every emitted event is matched, within the instrument, to an actual
complete trading session dated at or after the announcement, and no earlier
qualifying session exists; hence a disclosure with no qualifying session
yields no event. -/
theorem gap_event_first_session_at_or_after (stk : List StkRaw)
    (pft : List PftRaw) (r : GapOut) (hr : r ∈ filter_data stk pft) :
    (r.Annodt ≤ r.Trddt ∧
      ∃ s ∈ stkDropna stk, s.Stkcd = r.Stkcd ∧ s.Trddt = r.Trddt) ∧
    ∀ s ∈ stkDropna stk, s.Stkcd = r.Stkcd → r.Annodt ≤ s.Trddt →
      r.Trddt ≤ s.Trddt := by
  rcases filter_data_mem_destruct hr with ⟨p, s, h, hp, hasof, hph, hlt, rfl⟩
  unfold asofForward at hasof
  have hpred := List.find?_some hasof
  have hmem : s ∈ stkPrepared stk := List.mem_of_find?_eq_some hasof
  rw [decide_eq_true_eq] at hpred
  obtain ⟨hcd, hle⟩ := hpred
  refine ⟨⟨hle, s.row, mem_stkPrepared hmem, hcd, rfl⟩, ?_⟩
  intro s' hs' hcd' hle'
  rcases stkDropna_mem_prepared hs' with ⟨t, ht, hts⟩
  have hsorted : (stkPrepared stk).Pairwise trddtLe :=
    List.sorted_insertionSort trddtLe _
  have hq : (decide (t.row.Stkcd = p.Stkcd ∧ p.Annodt ≤ t.row.Trddt)) = true := by
    rw [decide_eq_true_eq, hts]
    exact ⟨hcd', hle'⟩
  rcases find_pairwise_min hsorted hasof t ht hq with heq | hR
  · show s.row.Trddt ≤ s'.Trddt
    rw [heq, hts]
  · show s.row.Trddt ≤ s'.Trddt
    have hR' : s.row.Trddt ≤ t.row.Trddt := hR
    rw [hts] at hR'
    exact hR'

/-- Example tables: instrument 1 trades on days 0 and 2; a disclosure is
announced on day 1 and matches the day-2 session, whose low 11 exceeds the
prior high 10, so one event with a 10% gap is emitted. -/
def cstk1 : List StkRaw :=
  [⟨1, 0, some 10, some 9, some 9⟩, ⟨1, 2, some 12, some 11, some 11⟩]

def cpft1 : List PftRaw := [⟨1, 1, some 1, some 5⟩]

def crow1 : GapOut := ⟨1, 1, 1, 2, 11, some 10, FV.val 10⟩

/-- C1 witness: on the concrete tables the emitted event is matched to the
first session at or after its announcement. -/
theorem gap_event_first_session_at_or_after_w :
    (crow1.Annodt ≤ crow1.Trddt ∧
      ∃ s ∈ stkDropna cstk1, s.Stkcd = crow1.Stkcd ∧ s.Trddt = crow1.Trddt) ∧
    ∀ s ∈ stkDropna cstk1, s.Stkcd = crow1.Stkcd → crow1.Annodt ≤ s.Trddt →
      crow1.Trddt ≤ s.Trddt :=
  gap_event_first_session_at_or_after cstk1 cpft1 crow1 (by decide)

/-- C2 (amended): every emitted row has a non-null prior high below its low
and carries `gap_pct = (low - prior_high)/prior_high * 100`; the gap is a
strictly positive value whenever the prior high is positive, and `+inf` at
a zero prior high; the counterexample exhibits a negative prior high whose
emitted gap is negative. -/
theorem gap_emitted_row_shape (stk : List StkRaw) (pft : List PftRaw)
    (r : GapOut) (hr : r ∈ filter_data stk pft) :
    ∃ h : ℚ, r.prevHigh = some h ∧ h < r.Loprc ∧
      r.gap = (fqdiv (r.Loprc - h) h).mul (FV.val 100) ∧
      (0 < h → r.gap = FV.val ((r.Loprc - h) / h * 100) ∧
        0 < (r.Loprc - h) / h * 100) ∧
      (h = 0 → r.gap = FV.inf) := by
  rcases filter_data_mem_destruct hr with ⟨p, s, h, hp, hasof, hph, hlt, rfl⟩
  refine ⟨h, rfl, hlt, rfl, ?_, ?_⟩
  · intro hpos
    have hne : h ≠ 0 := ne_of_gt hpos
    have hgap : fqdiv (s.row.Loprc - h) h = FV.val ((s.row.Loprc - h) / h) := by
      unfold fqdiv; rw [if_neg hne]
    constructor
    · show (fqdiv (s.row.Loprc - h) h).mul (FV.val 100) = _
      rw [hgap]
      rfl
    · have h1 : 0 < s.row.Loprc - h := by linarith
      exact mul_pos (div_pos h1 hpos) (by norm_num)
  · intro h0
    subst h0
    show (fqdiv (s.row.Loprc - 0) 0).mul (FV.val 100) = FV.inf
    unfold fqdiv
    rw [if_pos rfl, if_pos (show (0:ℚ) < s.row.Loprc - 0 by linarith)]
    decide

/-- C2 witness: on the concrete tables the emitted event has prior high 10,
low 11, and gap 10%. -/
theorem gap_emitted_row_shape_w :
    ∃ h : ℚ, crow1.prevHigh = some h ∧ h < crow1.Loprc ∧
      crow1.gap = (fqdiv (crow1.Loprc - h) h).mul (FV.val 100) ∧
      (0 < h → crow1.gap = FV.val ((crow1.Loprc - h) / h * 100) ∧
        0 < (crow1.Loprc - h) / h * 100) ∧
      (h = 0 → crow1.gap = FV.inf) :=
  gap_emitted_row_shape cstk1 cpft1 crow1 (by decide)

/-- Tables with (nonsensical but accepted) negative prices: the low -5 of the
matched session exceeds the prior high -10, so an event is emitted, yet its
gap percentage is -50, not positive. -/
def cstk2 : List StkRaw :=
  [⟨1, 0, some (-10), some (-12), some (-11)⟩,
   ⟨1, 1, some (-4), some (-5), some (-5)⟩]

def cpft2 : List PftRaw := [⟨1, 1, some 2, some 7⟩]

/-- C2 counterexample: the detector emits a row whose `gap_pct` is -50, so
"gap_pct is strictly positive for every emitted row" is false as stated. -/
theorem gap_pct_positive_cex :
    filter_data cstk2 cpft2 = [⟨1, 2, 1, 1, -5, some (-10), FV.val (-50)⟩] ∧
    ((filter_data cstk2 cpft2).all (fun r => FV.lt (FV.val 0) r.gap)) = false := by
  decide

/-- C10: the detector never emits more rows than there are complete
disclosures, and no disclosure key `(instrument, announce_date)` appears in
the output more often than in the complete disclosure input — ties among
same-dated trading rows cannot duplicate a disclosure. -/
theorem gap_output_per_disclosure_bound (stk : List StkRaw) (pft : List PftRaw) :
    (filter_data stk pft).length ≤ (pftDropna pft).length ∧
    ∀ (c : ℕ) (d : ℤ),
      (filter_data stk pft).countP
          (fun r => decide (r.Stkcd = c ∧ r.Annodt = d)) ≤
        (pftDropna pft).countP
          (fun p => decide (p.Stkcd = c ∧ p.Annodt = d)) := by
  have hperm := List.perm_insertionSort pftAnnLe (pftDropna pft)
  constructor
  · refine le_trans (by simp only [filter_data]; exact List.length_filterMap_le _ _) ?_
    rw [List.length_map]
    exact le_of_eq hperm.length_eq
  · intro c d
    rw [← hperm.countP_eq (fun p => decide (p.Stkcd = c ∧ p.Annodt = d))]
    simp only [filter_data, List.filterMap_map]
    refine countP_filterMap_le _ _ _ ?_ _
    intro p r hG hq
    simp only [Function.comp] at hG
    rcases gapMatchRow_elim hG with ⟨s, h, ho, hph, hlt, hre⟩
    subst hre
    exact hq

/-- C10 witness-style instantiation on the concrete tables. -/
theorem gap_output_per_disclosure_bound_w :
    (filter_data cstk1 cpft1).length ≤ (pftDropna cpft1).length ∧
    (filter_data cstk1 cpft1).countP
        (fun r => decide (r.Stkcd = 1 ∧ r.Annodt = 1)) ≤
      (pftDropna cpft1).countP
        (fun p => decide (p.Stkcd = 1 ∧ p.Annodt = 1)) :=
  ⟨(gap_output_per_disclosure_bound cstk1 cpft1).1,
   (gap_output_per_disclosure_bound cstk1 cpft1).2 1 1⟩

/-! ## Growth Feature Builder and Strategy Selector (`data_test.py`)

`strategy_consistent_growth` shifts announcement dates by whole months
(`pd.DateOffset(months=3*i)`), so this stage needs calendar dates. -/

/-- A calendar date as pandas timestamps present it to `DateOffset`:
year, month, day. -/
structure Date where
  y : ℤ
  m : ℤ
  d : ℤ
deriving DecidableEq, Repr

/-- Calendar order on dates (lexicographic year, month, day). -/
def dateLe (a b : Date) : Prop :=
  a.y < b.y ∨ (a.y = b.y ∧ (a.m < b.m ∨ (a.m = b.m ∧ a.d ≤ b.d)))

instance : DecidableRel dateLe := fun a b => by unfold dateLe; infer_instance

theorem dateLe_refl (a : Date) : dateLe a a := by unfold dateLe; omega

theorem dateLe_trans {a b c : Date} (h1 : dateLe a b) (h2 : dateLe b c) :
    dateLe a c := by
  unfold dateLe at *
  omega

/-- Days in a calendar month, Gregorian leap rule (as pandas uses when
clamping a `DateOffset(months=...)` shift). -/
def daysInMonth (y m : ℤ) : ℤ :=
  if m = 2 then
    if (y % 4 = 0 ∧ y % 100 ≠ 0) ∨ y % 400 = 0 then 29 else 28
  else if m = 4 ∨ m = 6 ∨ m = 9 ∨ m = 11 then 30 else 31

/-- `timestamp + pd.DateOffset(months := n)`: advance the month, carrying
into the year, and clamp the day to the target month's length. -/
def addMonths (n : ℤ) (t : Date) : Date :=
  let tot := t.m - 1 + n
  let y2 := t.y + Int.ediv tot 12
  let m2 := Int.emod tot 12 + 1
  ⟨y2, m2, min t.d (daysInMonth y2 m2)⟩

/-- A disclosure row as `data_test.py` reads it (`merged_pft_data.csv`),
already complete in the fields this stage touches. -/
structure FinRaw where
  Stkcd : ℕ
  Annodt : Date
  Profita : ℚ
deriving DecidableEq, Repr

/-- `sort_values(['Stkcd', 'Annodt'])` comparison on disclosures. -/
def finLex (a b : FinRaw) : Prop :=
  a.Stkcd < b.Stkcd ∨ (a.Stkcd = b.Stkcd ∧ dateLe a.Annodt b.Annodt)

instance : DecidableRel finLex := fun a b => by
  unfold finLex; infer_instance

instance : IsTotal FinRaw finLex := ⟨by
  intro a b; unfold finLex dateLe; omega⟩

instance : IsTrans FinRaw finLex := ⟨by
  intro a b c; unfold finLex dateLe; omega⟩

/-- A disclosure row with the two growth columns attached. -/
structure FinRowG where
  Stkcd : ℕ
  Annodt : Date
  Profita : ℚ
  profit_growth : FV
  profit_growth_2y : FV
deriving DecidableEq, Repr

/-- `Series.pct_change(periods=k)` at one row of a group: given the `k`-back
value, `current/previous - 1` under float semantics (`±inf` on division by
zero, `NaN` for `0/0`); `NaN` when fewer than `k` prior rows exist. -/
def pctChangeCell (cur : ℚ) : Option ℚ → FV
  | none => FV.nan
  | some prev => (fqdiv cur prev).sub (FV.val 1)

/-- One step of `preprocess_financial_data`'s column construction: annotate
the row `r`, whose same-instrument predecessors within the sorted frame are
`pre` (most recent first), with `pct_change()` and `pct_change(periods=4)`. -/
def annotateFin (pre : List FinRaw) (r : FinRaw) : FinRowG :=
  let before := (pre.filter (fun x => x.Stkcd == r.Stkcd)).reverse
  ⟨r.Stkcd, r.Annodt, r.Profita,
   pctChangeCell r.Profita ((before.get? 0).map (·.Profita)),
   pctChangeCell r.Profita ((before.get? 3).map (·.Profita))⟩

/-- Walk the sorted frame accumulating the prefix (pandas `groupby` collects
group members in frame order). -/
def annotateFinList (pre : List FinRaw) : List FinRaw → List FinRowG
  | [] => []
  | r :: rest => annotateFin pre r :: annotateFinList (pre ++ [r]) rest

/-- `preprocess_financial_data`: sort by `(Stkcd, Annodt)`, then attach
`profit_growth = groupby('Stkcd')['Profita'].pct_change()` and
`profit_growth_2y = ...pct_change(periods=4)`. -/
def preprocess_financial_data (fin : List FinRaw) : List FinRowG :=
  annotateFinList [] (List.insertionSort finLex fin)

/-- Index law for the annotation walk: the row at position `i` is annotated
against the accumulated prefix (pandas `groupby` looks at the whole frame
before the row). -/
theorem annotateFinList_get? (l : List FinRaw) :
    ∀ (pre : List FinRaw) (i : ℕ),
      (annotateFinList pre l).get? i =
        (l.get? i).map (fun r => annotateFin (pre ++ l.take i) r) := by
  induction l with
  | nil => intro pre i; simp [annotateFinList]
  | cons a t ih =>
    intro pre i
    cases i with
    | zero => simp [annotateFinList]
    | succ n =>
      simp only [annotateFinList, List.get?_cons_succ, List.take_succ_cons]
      rw [ih (pre ++ [a]) n]
      simp [List.append_assoc]

/-- A gap event as consumed by `strategy_consistent_growth` (row of
`filtered_data.csv`): instrument, announcement date, matched trade date. -/
structure GapRow where
  Stkcd : ℕ
  Annodt : Date
  Trddt : Date
deriving DecidableEq, Repr

/-- `sort_values('Annodt')` comparison on gap events. -/
def gapAnnLe (a b : GapRow) : Prop := dateLe a.Annodt b.Annodt

instance : DecidableRel gapAnnLe := fun a b => by unfold gapAnnLe; infer_instance

instance : IsTotal GapRow gapAnnLe := ⟨by intro a b; unfold gapAnnLe dateLe; omega⟩

instance : IsTrans GapRow gapAnnLe := ⟨by intro a b c; unfold gapAnnLe dateLe; omega⟩

/-- `sort_values('Annodt')` comparison on growth-annotated disclosures. -/
def finGAnnLe (a b : FinRowG) : Prop := dateLe a.Annodt b.Annodt

instance : DecidableRel finGAnnLe := fun a b => by unfold finGAnnLe; infer_instance

instance : IsTotal FinRowG finGAnnLe := ⟨by intro a b; unfold finGAnnLe dateLe; omega⟩

instance : IsTrans FinRowG finGAnnLe := ⟨by intro a b c; unfold finGAnnLe dateLe; omega⟩

/-- `fin_data.dropna()` on the growth-annotated frame: only the two computed
columns can be NaN, so keep the rows where both are actual values. -/
def finDropna (l : List FinRowG) : List FinRowG :=
  l.filter (fun f => !f.profit_growth.isNan && !f.profit_growth_2y.isNan)

/-- The `pd.merge_asof(gap_events, fin_data.dropna(), on='Annodt',
by='Stkcd', direction='backward')` step of `strategy_consistent_growth`:
each event (in announcement order) is paired with the last row of the
`Annodt`-sorted complete growth table having the same instrument and
`Annodt ≤` the event's — i.e. the most recent growth record at or before
the event date; NaN columns (here `none`) when no such record exists. -/
def strategyMerge (gap : List GapRow) (fin : List FinRowG) :
    List (GapRow × Option FinRowG) :=
  let finS := List.insertionSort finGAnnLe (finDropna fin)
  (List.insertionSort gapAnnLe gap).map (fun e =>
    (e, finS.reverse.find?
      (fun f => decide (f.Stkcd = e.Stkcd ∧ dateLe f.Annodt e.Annodt))))

/-- A row of the selector's merged frame: the event, the as-of-attached
growth record, and the `growth_iq_ago` columns accumulated so far. -/
structure MRow where
  ev : GapRow
  fin : Option FinRowG
  offs : List FV
deriving DecidableEq, Repr

/-- One iteration of the offset-join loop: shift each disclosure's
announcement forward by `3k` months and left-join on the exact pair
`(Stkcd, shifted Annodt)` against the event's `Annodt` — no tolerance.
`pd.merge(..., how='left')` emits one row per match and a single NaN-filled
row when there is none. -/
def addOffset (fin : List FinRowG) (k : ℤ) (r : MRow) : List MRow :=
  match fin.filter (fun f =>
      decide (f.Stkcd = r.ev.Stkcd ∧ addMonths (3 * k) f.Annodt = r.ev.Annodt)) with
  | [] => [⟨r.ev, r.fin, r.offs ++ [FV.nan]⟩]
  | ms => ms.map (fun f => ⟨r.ev, r.fin, r.offs ++ [f.profit_growth]⟩)

/-- The `for i in range(1, 9)` loop of `strategy_consistent_growth`. -/
def offsetLoop (fin : List FinRowG) (rows : List MRow) : List MRow :=
  [1, 2, 3, 4, 5, 6, 7, 8].foldl (fun rs k => rs.flatMap (addOffset fin k)) rows

/-- `strategy_consistent_growth`: backward as-of join of events with growth
records, eight offset joins, then the selection predicate
`merged['profit_growth_2y'] > 50` (a float comparison, false on NaN). -/
def strategy_consistent_growth (gap : List GapRow) (fin : List FinRowG) :
    List MRow :=
  let merged := (strategyMerge gap fin).map
    (fun m => (⟨m.1, m.2, []⟩ : MRow))
  (offsetLoop fin merged).filter (fun r =>
    FV.gt (match r.fin with
           | some f => f.profit_growth_2y
           | none => FV.nan)
      (FV.val 50))

/-- The same-instrument rows preceding position `i` of the sorted disclosure
frame, most recent first — the window `pct_change` differences against. -/
def finBefore (fin : List FinRaw) (i : ℕ) (r0 : FinRaw) : List FinRaw :=
  (((List.insertionSort finLex fin).take i).filter
    (fun x => x.Stkcd == r0.Stkcd)).reverse

/-- C5 (amended): in the `(Stkcd, Annodt)`-sorted disclosure frame, the row
at position `i` carries `profit_growth = profit[i]/profit[i-1] - 1` against
the previous same-instrument row (NaN at an instrument's first record, but
`+inf` — not NaN — when the previous profit is 0 and the current is
positive), and `profit_growth_2y = profit[i]/profit[i-4] - 1` (NaN while
fewer than 4 prior records exist, an actual value at the 5th record when
the lagged profit is nonzero). -/
theorem growth_features_positional (fin : List FinRaw) (i : ℕ) (r : FinRowG)
    (hr : (preprocess_financial_data fin).get? i = some r) :
    ∃ r0, (List.insertionSort finLex fin).get? i = some r0 ∧
      r.Stkcd = r0.Stkcd ∧ r.Annodt = r0.Annodt ∧ r.Profita = r0.Profita ∧
      (finBefore fin i r0 = [] → r.profit_growth = FV.nan) ∧
      (∀ q, (finBefore fin i r0).get? 0 = some q → q.Profita ≠ 0 →
        r.profit_growth = FV.val (r0.Profita / q.Profita - 1)) ∧
      (∀ q, (finBefore fin i r0).get? 0 = some q → q.Profita = 0 →
        0 < r0.Profita → r.profit_growth = FV.inf) ∧
      ((finBefore fin i r0).length < 4 → r.profit_growth_2y = FV.nan) ∧
      (∀ q, (finBefore fin i r0).get? 3 = some q → q.Profita ≠ 0 →
        r.profit_growth_2y = FV.val (r0.Profita / q.Profita - 1)) := by
  unfold preprocess_financial_data at hr
  rw [annotateFinList_get?] at hr
  cases hs : (List.insertionSort finLex fin).get? i with
  | none => rw [hs] at hr; exact absurd hr (by simp)
  | some r0 =>
    rw [hs] at hr
    have hre : r = annotateFin ([] ++ (List.insertionSort finLex fin).take i) r0 := by
      have := Option.some.inj hr
      exact this.symm
    subst hre
    have hg1 : (annotateFin ([] ++ (List.insertionSort finLex fin).take i) r0).profit_growth =
        pctChangeCell r0.Profita (((finBefore fin i r0).get? 0).map (·.Profita)) := rfl
    have hg4 : (annotateFin ([] ++ (List.insertionSort finLex fin).take i) r0).profit_growth_2y =
        pctChangeCell r0.Profita (((finBefore fin i r0).get? 3).map (·.Profita)) := rfl
    refine ⟨r0, rfl, rfl, rfl, rfl, ?_, ?_, ?_, ?_, ?_⟩
    · intro hB
      rw [hg1, hB]
      rfl
    · intro q hq hq0
      rw [hg1, hq]
      show (fqdiv r0.Profita q.Profita).sub (FV.val 1) = _
      unfold fqdiv
      rw [if_neg hq0]
      show FV.val (r0.Profita / q.Profita + -1) = _
      rw [sub_eq_add_neg]
    · intro q hq hq0 hpos
      rw [hg1, hq]
      show (fqdiv r0.Profita q.Profita).sub (FV.val 1) = _
      unfold fqdiv
      rw [if_pos hq0, if_pos hpos]
      rfl
    · intro hlen
      rw [hg4, List.get?_eq_none.mpr (by omega)]
      rfl
    · intro q hq hq0
      rw [hg4, hq]
      show (fqdiv r0.Profita q.Profita).sub (FV.val 1) = _
      unfold fqdiv
      rw [if_neg hq0]
      show FV.val (r0.Profita / q.Profita + -1) = _
      rw [sub_eq_add_neg]

/-- Two quarterly disclosures of instrument 1 with profits 10 then 15. -/
def cfin5 : List FinRaw := [⟨1, ⟨2020, 3, 31⟩, 10⟩, ⟨1, ⟨2020, 6, 30⟩, 15⟩]

/-- C5 witness: on the concrete series the second record's single-period
growth is `15/10 - 1 = 1/2` and its 4-lag growth is NaN. -/
theorem growth_features_positional_w :
    ∃ r0, (List.insertionSort finLex cfin5).get? 1 = some r0 ∧
      (⟨1, ⟨2020, 6, 30⟩, 15, FV.val (1/2), FV.nan⟩ : FinRowG).Stkcd = r0.Stkcd ∧
      (⟨1, ⟨2020, 6, 30⟩, 15, FV.val (1/2), FV.nan⟩ : FinRowG).Annodt = r0.Annodt ∧
      (⟨1, ⟨2020, 6, 30⟩, 15, FV.val (1/2), FV.nan⟩ : FinRowG).Profita = r0.Profita ∧
      (finBefore cfin5 1 r0 = [] →
        (⟨1, ⟨2020, 6, 30⟩, 15, FV.val (1/2), FV.nan⟩ : FinRowG).profit_growth = FV.nan) ∧
      (∀ q, (finBefore cfin5 1 r0).get? 0 = some q → q.Profita ≠ 0 →
        (⟨1, ⟨2020, 6, 30⟩, 15, FV.val (1/2), FV.nan⟩ : FinRowG).profit_growth =
          FV.val (r0.Profita / q.Profita - 1)) ∧
      (∀ q, (finBefore cfin5 1 r0).get? 0 = some q → q.Profita = 0 →
        0 < r0.Profita →
        (⟨1, ⟨2020, 6, 30⟩, 15, FV.val (1/2), FV.nan⟩ : FinRowG).profit_growth = FV.inf) ∧
      ((finBefore cfin5 1 r0).length < 4 →
        (⟨1, ⟨2020, 6, 30⟩, 15, FV.val (1/2), FV.nan⟩ : FinRowG).profit_growth_2y = FV.nan) ∧
      (∀ q, (finBefore cfin5 1 r0).get? 3 = some q → q.Profita ≠ 0 →
        (⟨1, ⟨2020, 6, 30⟩, 15, FV.val (1/2), FV.nan⟩ : FinRowG).profit_growth_2y =
          FV.val (r0.Profita / q.Profita - 1)) :=
  growth_features_positional cfin5 1 ⟨1, ⟨2020, 6, 30⟩, 15, FV.val (1/2), FV.nan⟩ (by decide)

/-- Instrument 1 discloses profit 0 and then 5. -/
def cfin5z : List FinRaw := [⟨1, ⟨2020, 3, 31⟩, 0⟩, ⟨1, ⟨2020, 6, 30⟩, 5⟩]

/-- C5 counterexample: when the previous profit is 0 (and the current one
positive), `pct_change` produces `+inf`, not null — the second record's
growth cell is `inf`, which is not the NaN missing marker. -/
theorem growth_div_zero_not_null_cex :
    (preprocess_financial_data cfin5z).get? 1 =
      some ⟨1, ⟨2020, 6, 30⟩, 5, FV.inf, FV.nan⟩ ∧
    FV.inf ≠ FV.nan ∧ FV.inf.isNan = false := by decide

/-- C6: the selector's backward as-of join only ever attaches a growth
record of the same instrument announced at or before the event date, and
among the complete growth records it attaches the most recent such one. -/
theorem strategy_backward_asof_no_future (gap : List GapRow)
    (fin : List FinRowG) (e : GapRow) (g : FinRowG)
    (hm : (e, some g) ∈ strategyMerge gap fin) :
    g.Stkcd = e.Stkcd ∧ dateLe g.Annodt e.Annodt ∧
    ∀ f ∈ finDropna fin, f.Stkcd = e.Stkcd → dateLe f.Annodt e.Annodt →
      dateLe f.Annodt g.Annodt := by
  simp only [strategyMerge] at hm
  rcases List.mem_map.mp hm with ⟨e', he', heq⟩
  have h1 : e' = e := congrArg Prod.fst heq
  have hfind := congrArg Prod.snd heq
  rw [h1] at hfind
  have hpred := List.find?_some hfind
  rw [decide_eq_true_eq] at hpred
  obtain ⟨hcd, hle⟩ := hpred
  refine ⟨hcd, hle, ?_⟩
  intro f hf hfcd hfle
  have hsorted : (List.insertionSort finGAnnLe (finDropna fin)).Pairwise finGAnnLe :=
    List.sorted_insertionSort finGAnnLe _
  have hrev : (List.insertionSort finGAnnLe (finDropna fin)).reverse.Pairwise
      (fun a b => finGAnnLe b a) := List.pairwise_reverse.mpr hsorted
  have hfmem : f ∈ (List.insertionSort finGAnnLe (finDropna fin)).reverse := by
    rw [List.mem_reverse]
    exact (List.perm_insertionSort finGAnnLe _).mem_iff.mpr hf
  have hq : (decide (f.Stkcd = e.Stkcd ∧ dateLe f.Annodt e.Annodt)) = true := by
    rw [decide_eq_true_eq]
    exact ⟨hfcd, hfle⟩
  rcases find_pairwise_min hrev hfind f hfmem hq with h | h
  · rw [h]
    exact dateLe_refl _
  · exact h

/-- A one-row complete growth table and a later gap event for instrument 1. -/
def cfinG6 : List FinRowG :=
  [⟨1, ⟨2020, 3, 31⟩, 10, FV.val (1/10), FV.val (3/5)⟩]

def cgap6 : List GapRow := [⟨1, ⟨2020, 4, 10⟩, ⟨2020, 4, 13⟩⟩]

/-- C6 witness: the attached record is dated 2020-03-31, at or before the
event's 2020-04-10, and is the most recent such record. -/
theorem strategy_backward_asof_no_future_w :
    (⟨1, ⟨2020, 3, 31⟩, 10, FV.val (1/10), FV.val (3/5)⟩ : FinRowG).Stkcd =
      (⟨1, ⟨2020, 4, 10⟩, ⟨2020, 4, 13⟩⟩ : GapRow).Stkcd ∧
    dateLe (⟨1, ⟨2020, 3, 31⟩, 10, FV.val (1/10), FV.val (3/5)⟩ : FinRowG).Annodt
      (⟨1, ⟨2020, 4, 10⟩, ⟨2020, 4, 13⟩⟩ : GapRow).Annodt ∧
    ∀ f ∈ finDropna cfinG6,
      f.Stkcd = (⟨1, ⟨2020, 4, 10⟩, ⟨2020, 4, 13⟩⟩ : GapRow).Stkcd →
      dateLe f.Annodt (⟨1, ⟨2020, 4, 10⟩, ⟨2020, 4, 13⟩⟩ : GapRow).Annodt →
      dateLe f.Annodt
        (⟨1, ⟨2020, 3, 31⟩, 10, FV.val (1/10), FV.val (3/5)⟩ : FinRowG).Annodt :=
  strategy_backward_asof_no_future cgap6 cfinG6
    ⟨1, ⟨2020, 4, 10⟩, ⟨2020, 4, 13⟩⟩
    ⟨1, ⟨2020, 3, 31⟩, 10, FV.val (1/10), FV.val (3/5)⟩ (by decide)

/-- C8: one offset join step (as iterated for k = 1..8) leaves the event
and the as-of columns unchanged and appends exactly one
`growth_kq_ago` column cell, which is NaN when no disclosure of the event's
instrument has `announce_date + 3k months` exactly equal to the event's
announce date, and a matching disclosure's single-period growth otherwise. -/
theorem offset_join_exact_key (fin : List FinRowG) (k : ℤ)
    (hk1 : 1 ≤ k) (hk2 : k ≤ 8) (r r' : MRow)
    (hr' : r' ∈ addOffset fin k r) :
    r'.ev = r.ev ∧ r'.fin = r.fin ∧
    ∃ v, r'.offs = r.offs ++ [v] ∧
      ((¬ ∃ f ∈ fin, f.Stkcd = r.ev.Stkcd ∧
          addMonths (3 * k) f.Annodt = r.ev.Annodt) → v = FV.nan) ∧
      ((∃ f ∈ fin, f.Stkcd = r.ev.Stkcd ∧
          addMonths (3 * k) f.Annodt = r.ev.Annodt) →
        ∃ f ∈ fin, f.Stkcd = r.ev.Stkcd ∧
          addMonths (3 * k) f.Annodt = r.ev.Annodt ∧ v = f.profit_growth) := by
  rw [addOffset.eq_def] at hr'
  split at hr'
  · rename_i hfil
    rw [List.mem_singleton] at hr'
    subst hr'
    refine ⟨rfl, rfl, FV.nan, rfl, fun _ => rfl, ?_⟩
    intro hex
    exfalso
    rcases hex with ⟨f, hf, hcd, hsh⟩
    have : f ∈ fin.filter (fun f =>
        decide (f.Stkcd = r.ev.Stkcd ∧ addMonths (3 * k) f.Annodt = r.ev.Annodt)) :=
      List.mem_filter.mpr ⟨hf, by rw [decide_eq_true_eq]; exact ⟨hcd, hsh⟩⟩
    rw [hfil] at this
    exact absurd this (List.not_mem_nil f)
  · rcases List.mem_map.mp hr' with ⟨f, hfmem, heq⟩
    rcases List.mem_filter.mp hfmem with ⟨hf, hpred⟩
    rw [decide_eq_true_eq] at hpred
    obtain ⟨hcd, hsh⟩ := hpred
    subst heq
    exact ⟨rfl, rfl, f.profit_growth, rfl,
      fun hno => absurd ⟨f, hf, hcd, hsh⟩ hno,
      fun _ => ⟨f, hf, hcd, hsh, rfl⟩⟩

/-- C8 witness: with the one-record table, shifting 2020-03-31 by 3 months
gives 2020-06-30 ≠ the event's 2020-04-10, so the appended column cell is
NaN. -/
theorem offset_join_exact_key_w :
    (⟨⟨1, ⟨2020, 4, 10⟩, ⟨2020, 4, 13⟩⟩, none, [FV.nan]⟩ : MRow).ev =
      (⟨⟨1, ⟨2020, 4, 10⟩, ⟨2020, 4, 13⟩⟩, none, []⟩ : MRow).ev ∧
    (⟨⟨1, ⟨2020, 4, 10⟩, ⟨2020, 4, 13⟩⟩, none, [FV.nan]⟩ : MRow).fin =
      (⟨⟨1, ⟨2020, 4, 10⟩, ⟨2020, 4, 13⟩⟩, none, []⟩ : MRow).fin ∧
    ∃ v, (⟨⟨1, ⟨2020, 4, 10⟩, ⟨2020, 4, 13⟩⟩, none, [FV.nan]⟩ : MRow).offs =
        (⟨⟨1, ⟨2020, 4, 10⟩, ⟨2020, 4, 13⟩⟩, none, []⟩ : MRow).offs ++ [v] ∧
      ((¬ ∃ f ∈ cfinG6, f.Stkcd =
          (⟨⟨1, ⟨2020, 4, 10⟩, ⟨2020, 4, 13⟩⟩, none, []⟩ : MRow).ev.Stkcd ∧
          addMonths (3 * 1) f.Annodt =
          (⟨⟨1, ⟨2020, 4, 10⟩, ⟨2020, 4, 13⟩⟩, none, []⟩ : MRow).ev.Annodt) →
        v = FV.nan) ∧
      ((∃ f ∈ cfinG6, f.Stkcd =
          (⟨⟨1, ⟨2020, 4, 10⟩, ⟨2020, 4, 13⟩⟩, none, []⟩ : MRow).ev.Stkcd ∧
          addMonths (3 * 1) f.Annodt =
          (⟨⟨1, ⟨2020, 4, 10⟩, ⟨2020, 4, 13⟩⟩, none, []⟩ : MRow).ev.Annodt) →
        ∃ f ∈ cfinG6, f.Stkcd =
          (⟨⟨1, ⟨2020, 4, 10⟩, ⟨2020, 4, 13⟩⟩, none, []⟩ : MRow).ev.Stkcd ∧
          addMonths (3 * 1) f.Annodt =
          (⟨⟨1, ⟨2020, 4, 10⟩, ⟨2020, 4, 13⟩⟩, none, []⟩ : MRow).ev.Annodt ∧
          v = f.profit_growth) :=
  offset_join_exact_key cfinG6 1 (by decide) (by decide)
    ⟨⟨1, ⟨2020, 4, 10⟩, ⟨2020, 4, 13⟩⟩, none, []⟩
    ⟨⟨1, ⟨2020, 4, 10⟩, ⟨2020, 4, 13⟩⟩, none, [FV.nan]⟩ (by decide)

/-- Five quarterly disclosures of instrument 1 with profits 10, 11, 12, 13,
16, so the fifth record's two-year compound growth is `16/10 - 1 = 0.6`. -/
def cfin3 : List FinRaw :=
  [⟨1, ⟨2019, 3, 31⟩, 10⟩, ⟨1, ⟨2019, 6, 30⟩, 11⟩, ⟨1, ⟨2019, 9, 30⟩, 12⟩,
   ⟨1, ⟨2019, 12, 31⟩, 13⟩, ⟨1, ⟨2020, 3, 31⟩, 16⟩]

/-- A gap event shortly after the fifth disclosure. -/
def cgap3 : List GapRow := [⟨1, ⟨2020, 4, 10⟩, ⟨2020, 4, 13⟩⟩]

/-- C3: the selection predicate in the source is
`merged['profit_growth_2y'] > 50`, so a joined row whose two-year growth is
0.6 (i.e. 60%, above the documented 0.5 threshold) is NOT selected: the
merged frame carries the 0.6 growth cell, yet the output is empty. -/
theorem strategy_threshold_code_bug :
    (strategyMerge cgap3 (preprocess_financial_data cfin3)).map
        (fun m => (m.2).map (·.profit_growth_2y)) = [some (FV.val (3/5))] ∧
    strategy_consistent_growth cgap3 (preprocess_financial_data cfin3) = [] := by
  decide

/-! ## Backtest Engine (`data_test.py`, `backtest_strategy`)

`sell_date = buy_date + Timedelta(days=hold_period)` is plain day
arithmetic, so dates at this stage are embedded as integers (days). -/

/-- A selected-stock row as the Backtest Engine reads it.  The
`buy_date`/`sell_date` cells are columns the engine itself assigns in place
on its input table; rows arriving from the Strategy Selector do not have
them yet (`none`). -/
structure SelRow where
  Stkcd : ℕ
  Trddt : ℤ
  buy_date : Option ℤ
  sell_date : Option ℤ
deriving DecidableEq, Repr

/-- A price-table row (`merged_stk_data.csv`: instrument, session date,
close). -/
structure PriceRow where
  Stkcd : ℕ
  Trddt : ℤ
  Clsprc : ℚ
deriving DecidableEq, Repr

/-- `sort_values` comparison on the price table's date column. -/
def priceLe (a b : PriceRow) : Prop := a.Trddt ≤ b.Trddt

instance : DecidableRel priceLe := fun a b => by unfold priceLe; infer_instance

instance : IsTotal PriceRow priceLe := ⟨by intro a b; unfold priceLe; omega⟩

instance : IsTrans PriceRow priceLe := ⟨by intro a b c; unfold priceLe; omega⟩

/-- Lines 86-87 of `data_test.py`: `selected_stocks['buy_date'] = ...` and
`selected_stocks['sell_date'] = buy_date + Timedelta(days=hold_period)`.
These column assignments happen on the caller's object, so this function is
both the first step of the engine and the post-call state of the caller's
selected-stocks table. -/
def backtestAssignDates (hold : ℤ) (sel : List SelRow) : List SelRow :=
  sel.map (fun r => ⟨r.Stkcd, r.Trddt, some r.Trddt, some (r.Trddt + hold)⟩)

/-- Buy-price lookup: `merge_asof(..., by='Stkcd', direction='backward')` —
the last session of the date-sorted price table with the same instrument at
or before the buy date. -/
def buyPriceLookup (price : List PriceRow) (stk : ℕ) (d : ℤ) : Option ℚ :=
  (((List.insertionSort priceLe price).reverse).find?
    (fun p => decide (p.Stkcd = stk ∧ p.Trddt ≤ d))).map (·.Clsprc)

/-- Sell-price lookup: `merge_asof(..., by='Stkcd', direction='forward')` —
the first session with the same instrument at or after the sell date. -/
def sellPriceLookup (price : List PriceRow) (stk : ℕ) (d : ℤ) : Option ℚ :=
  ((List.insertionSort priceLe price).find?
    (fun p => decide (p.Stkcd = stk ∧ d ≤ p.Trddt))).map (·.Clsprc)

/-- `selected_stocks['return'] = sell_price / buy_price - 1`: NaN whenever
either as-of lookup found no session. -/
def positionReturn (price : List PriceRow) (r : SelRow) : FV :=
  match r.buy_date, r.sell_date with
  | some bd, some sd =>
    match buyPriceLookup price r.Stkcd bd, sellPriceLookup price r.Stkcd sd with
    | some b, some s => (fqdiv s b).sub (FV.val 1)
    | _, _ => FV.nan
  | _, _ => FV.nan

/-- An output row of the engine: buy date, equal-weighted portfolio return,
cumulative compounded return. -/
structure PortRow where
  buy_date : ℤ
  ret : FV
  cum : FV
deriving DecidableEq, Repr

/-- The distinct buy dates, ascending, as `groupby('buy_date')` orders its
keys. -/
def backtestDates (sel2 : List SelRow) : List ℤ :=
  (List.insertionSort (α := ℤ) (· ≤ ·)
    (sel2.filterMap (fun r => r.buy_date))).dedup

/-- `groupby('buy_date')['return'].mean().reset_index()`: one row per
distinct buy date (ascending), valued by the NaN-skipping mean of the
returns of the positions opened that date. -/
def backtestPort (price : List PriceRow) (sel2 : List SelRow) :
    List (ℤ × FV) :=
  (backtestDates sel2).map (fun d =>
    (d, fmean ((sel2.filter (fun r => r.buy_date == some d)).map
      (positionReturn price))))

/-- `backtest_strategy` (without the optional benchmark branch): assign
buy/sell dates in place, as-of match both prices, compute per-position
returns, group by `buy_date` taking the NaN-skipping mean, and attach
`cum_return = (1 + portfolio_return).cumprod() - 1`. -/
def backtest_strategy (sel : List SelRow) (price : List PriceRow)
    (hold : ℤ) : List PortRow :=
  let port := backtestPort price (backtestAssignDates hold sel)
  let cums := cumprodSkip (FV.val 1) (port.map (fun p => (FV.val 1).add p.2))
  List.zipWith (fun p c => (⟨p.1, p.2, c.sub (FV.val 1)⟩ : PortRow)) port cums

/-- The skip-NaN cumulative product never changes the length. -/
theorem cumprodSkip_length (acc : FV) (l : List FV) :
    (cumprodSkip acc l).length = l.length := by
  induction l generalizing acc with
  | nil => rfl
  | cons x rest ih =>
    unfold cumprodSkip
    by_cases hx : x.isNan = true
    · rw [if_pos hx]
      simp [ih]
    · rw [if_neg hx]
      simp [ih]

/-- Projections of the engine's `zipWith` output row-assembly. -/
theorem zipWith_port_proj (port : List (ℤ × FV)) :
    ∀ cums : List FV, port.length = cums.length →
      (List.zipWith (fun p c => (⟨p.1, p.2, c.sub (FV.val 1)⟩ : PortRow))
          port cums).map (fun pr => pr.buy_date) = port.map (·.1) ∧
      (List.zipWith (fun p c => (⟨p.1, p.2, c.sub (FV.val 1)⟩ : PortRow))
          port cums).map (fun pr => pr.ret) = port.map (·.2) ∧
      (List.zipWith (fun p c => (⟨p.1, p.2, c.sub (FV.val 1)⟩ : PortRow))
          port cums).map (fun pr => pr.cum) =
        cums.map (fun c => c.sub (FV.val 1)) := by
  induction port with
  | nil =>
    intro cums h
    have : cums = [] := List.eq_nil_of_length_eq_zero h.symm
    subst this
    exact ⟨rfl, rfl, rfl⟩
  | cons p rest ih =>
    intro cums h
    cases cums with
    | nil => simp at h
    | cons c crest =>
      have hlen : rest.length = crest.length := by
        simpa using h
      rcases ih crest hlen with ⟨h1, h2, h3⟩
      simp only [List.zipWith_cons_cons, List.map_cons]
      exact ⟨by rw [h1], by rw [h2], by rw [h3]⟩

/-- Every output row of `zipWith` row-assembly comes from a `port` entry. -/
theorem zipWith_port_mem {port : List (ℤ × FV)} {cums : List FV} {pr : PortRow}
    (h : pr ∈ List.zipWith (fun p c => (⟨p.1, p.2, c.sub (FV.val 1)⟩ : PortRow))
      port cums) : ∃ a ∈ port, pr.buy_date = a.1 ∧ pr.ret = a.2 := by
  induction port generalizing cums with
  | nil => simp at h
  | cons p rest ih =>
    cases cums with
    | nil => simp at h
    | cons c crest =>
      rw [List.zipWith_cons_cons, List.mem_cons] at h
      rcases h with h | h
      · exact ⟨p, List.mem_cons_self p rest, by rw [h], by rw [h]⟩
      · rcases ih h with ⟨a, ha, h1, h2⟩
        exact ⟨a, List.mem_cons_of_mem p ha, h1, h2⟩

/-- The fields of the grouped table project out of the engine's output. -/
theorem backtestColumns (sel : List SelRow) (price : List PriceRow) (hold : ℤ) :
    (backtest_strategy sel price hold).map (fun pr => pr.buy_date) =
      backtestDates (backtestAssignDates hold sel) ∧
    (backtest_strategy sel price hold).map (fun pr => pr.ret) =
      (backtestPort price (backtestAssignDates hold sel)).map (·.2) ∧
    (backtest_strategy sel price hold).map (fun pr => pr.cum) =
      (cumprodSkip (FV.val 1)
        ((backtestPort price (backtestAssignDates hold sel)).map
          (fun p => (FV.val 1).add p.2))).map (fun c => c.sub (FV.val 1)) := by
  have hlen : (backtestPort price (backtestAssignDates hold sel)).length =
      (cumprodSkip (FV.val 1)
        ((backtestPort price (backtestAssignDates hold sel)).map
          (fun p => (FV.val 1).add p.2))).length := by
    rw [cumprodSkip_length, List.length_map]
  have h := zipWith_port_proj (backtestPort price (backtestAssignDates hold sel)) _ hlen
  refine ⟨?_, h.2.1, h.2.2⟩
  have hfst : (backtestPort price (backtestAssignDates hold sel)).map (·.1) =
      backtestDates (backtestAssignDates hold sel) := by
    unfold backtestPort
    rw [List.map_map]
    exact List.map_id _
  exact h.1.trans hfst

/-- The grouped buy dates are strictly increasing: sorted ascending by the
grouping, and distinct as group keys. -/
theorem backtestDates_strict_sorted (sel2 : List SelRow) :
    (backtestDates sel2).Pairwise (· < ·) := by
  unfold backtestDates
  have hsorted : (List.insertionSort (α := ℤ) (· ≤ ·)
      (sel2.filterMap (fun r => r.buy_date))).Pairwise (· ≤ ·) :=
    List.sorted_insertionSort _ _
  have hle := hsorted.sublist (List.dedup_sublist _)
  have hne : ((List.insertionSort (α := ℤ) (· ≤ ·)
      (sel2.filterMap (fun r => r.buy_date))).dedup).Pairwise (· ≠ ·) :=
    List.nodup_dedup _
  exact (hle.and hne).imp (fun h => lt_of_le_of_ne h.1 h.2)

/-- Each output row's portfolio return is the NaN-skipping mean over the
positions of its buy date. -/
theorem backtest_ret_eq (sel : List SelRow) (price : List PriceRow) (hold : ℤ) :
    ∀ pr ∈ backtest_strategy sel price hold,
      pr.ret = fmean (((backtestAssignDates hold sel).filter
        (fun r => r.buy_date == some pr.buy_date)).map (positionReturn price)) := by
  intro pr hpr
  have hpr' : pr ∈ List.zipWith (fun p c => (⟨p.1, p.2, c.sub (FV.val 1)⟩ : PortRow))
      (backtestPort price (backtestAssignDates hold sel))
      (cumprodSkip (FV.val 1)
        ((backtestPort price (backtestAssignDates hold sel)).map
          (fun p => (FV.val 1).add p.2))) := hpr
  rcases zipWith_port_mem hpr' with ⟨a, ha, h1, h2⟩
  rcases List.mem_map.mp ha with ⟨d, hd, had⟩
  subst had
  rw [h2, h1]

/-- A NaN cell contributes nothing to a pandas mean. -/
theorem fmean_skip_nan (l1 l2 : List FV) :
    fmean (l1 ++ FV.nan :: l2) = fmean (l1 ++ l2) := by
  unfold fmean
  rw [List.filter_append, List.filter_append, List.filter_cons]
  simp [FV.isNan]

/-- The mean of an all-NaN group is NaN. -/
theorem fmean_all_nan {l : List FV} (h : ∀ v ∈ l, v = FV.nan) :
    fmean l = FV.nan := by
  unfold fmean
  have he : l.filter (fun v => !v.isNan) = [] := by
    rw [List.filter_eq_nil_iff]
    intro a ha
    rw [h a ha]
    simp [FV.isNan]
  rw [he]
  rfl

/-- A position whose instrument has no session at or after its sell date
gets a NaN return. -/
theorem positionReturn_no_sell (price : List PriceRow) (stk : ℕ)
    (t bd sd : ℤ) (h : ∀ p ∈ price, p.Stkcd = stk → p.Trddt < sd) :
    positionReturn price ⟨stk, t, some bd, some sd⟩ = FV.nan := by
  have hfind : (List.insertionSort priceLe price).find?
      (fun p => decide (p.Stkcd = stk ∧ sd ≤ p.Trddt)) = none := by
    rw [List.find?_eq_none]
    intro p hp
    have hp' : p ∈ price := (List.perm_insertionSort priceLe price).mem_iff.mp hp
    simp only [decide_eq_true_eq]
    rintro ⟨hcd, hle⟩
    exact absurd hle (not_le.mpr (h p hp' hcd))
  have hsell : sellPriceLookup price stk sd = none := by
    unfold sellPriceLookup
    rw [hfind]
    rfl
  show (match buyPriceLookup price stk bd, sellPriceLookup price stk sd with
        | some b, some s => (fqdiv s b).sub (FV.val 1)
        | _, _ => FV.nan) = FV.nan
  rw [hsell]
  cases buyPriceLookup price stk bd <;> rfl

/-- C4 (amended): a selected position whose instrument has no trading
session at or after its sell date yields a NaN return, which the
`skipna` mean excludes from its buy date's aggregation; the buy date is
still a group key, so it APPEARS in the output table — with a NaN
portfolio return when it carried only such positions (the claim's "absent
from the output" is what fails). -/
theorem backtest_missing_sell_null (sel : List SelRow) (price : List PriceRow)
    (hold : ℤ) (r : SelRow) (hr : r ∈ sel)
    (hnosell : ∀ p ∈ price, p.Stkcd = r.Stkcd → p.Trddt < r.Trddt + hold) :
    positionReturn price ⟨r.Stkcd, r.Trddt, some r.Trddt, some (r.Trddt + hold)⟩ = FV.nan ∧
    (∃ pr ∈ backtest_strategy sel price hold, pr.buy_date = r.Trddt ∧
      ((∀ r2 ∈ sel, r2.Trddt = r.Trddt →
          ∀ p ∈ price, p.Stkcd = r2.Stkcd → p.Trddt < r2.Trddt + hold) →
        pr.ret = FV.nan)) ∧
    ∀ (l1 l2 : List FV), fmean (l1 ++ FV.nan :: l2) = fmean (l1 ++ l2) := by
  refine ⟨positionReturn_no_sell price r.Stkcd r.Trddt r.Trddt (r.Trddt + hold) hnosell,
    ?_, fmean_skip_nan⟩
  have hmem2 : (⟨r.Stkcd, r.Trddt, some r.Trddt, some (r.Trddt + hold)⟩ : SelRow) ∈
      backtestAssignDates hold sel := by
    simp only [backtestAssignDates]
    exact List.mem_map_of_mem _ hr
  have hbd : (r.Trddt : ℤ) ∈ (backtestAssignDates hold sel).filterMap
      (fun x => x.buy_date) :=
    List.mem_filterMap.mpr ⟨_, hmem2, rfl⟩
  have hdates : r.Trddt ∈ backtestDates (backtestAssignDates hold sel) := by
    unfold backtestDates
    rw [List.mem_dedup]
    exact (List.perm_insertionSort _ _).mem_iff.mpr hbd
  rw [← (backtestColumns sel price hold).1] at hdates
  rcases List.mem_map.mp hdates with ⟨pr, hpr, hprbuy⟩
  refine ⟨pr, hpr, hprbuy, ?_⟩
  intro hall
  rw [backtest_ret_eq sel price hold pr hpr]
  apply fmean_all_nan
  intro v hv
  rcases List.mem_map.mp hv with ⟨x, hx, hvx⟩
  rcases List.mem_filter.mp hx with ⟨hx2, hxbuy⟩
  simp only [backtestAssignDates] at hx2
  rcases List.mem_map.mp hx2 with ⟨r2, hr2, hxr2⟩
  subst hxr2
  rw [beq_iff_eq] at hxbuy
  have hr2d : r2.Trddt = r.Trddt := by
    have := Option.some.inj hxbuy
    rw [this, hprbuy]
  rw [← hvx]
  exact positionReturn_no_sell price r2.Stkcd r2.Trddt r2.Trddt (r2.Trddt + hold)
    (fun p hp hcd => hall r2 hr2 hr2d p hp hcd)

/-- One position of instrument 1 bought on day 0; the only session is day 0,
so the day-90 sell has no forward match. -/
def csel4 : List SelRow := [⟨1, 0, none, none⟩]

def cprice4 : List PriceRow := [⟨1, 0, 10⟩]

/-- C4 witness: the concrete lone position has a NaN return, its buy date 0
is present in the output, and its portfolio return is NaN. -/
theorem backtest_missing_sell_null_w :
    positionReturn cprice4 ⟨1, 0, some 0, some (0 + 90)⟩ = FV.nan ∧
    (∃ pr ∈ backtest_strategy csel4 cprice4 90, pr.buy_date = 0 ∧
      ((∀ r2 ∈ csel4, r2.Trddt = 0 →
          ∀ p ∈ cprice4, p.Stkcd = r2.Stkcd → p.Trddt < r2.Trddt + 90) →
        pr.ret = FV.nan)) ∧
    ∀ (l1 l2 : List FV), fmean (l1 ++ FV.nan :: l2) = fmean (l1 ++ l2) :=
  backtest_missing_sell_null csel4 cprice4 90 ⟨1, 0, none, none⟩
    (by decide) (by decide)

/-- C4 counterexample: with the lone unmatched position the claim says buy
date 0 is absent from the output; in fact the output is exactly the row
`(0, NaN, NaN)`. -/
theorem backtest_unmatched_buydate_present_cex :
    (backtest_strategy [⟨1, 0, none, none⟩] [⟨1, 0, 10⟩] 90).map
        (fun pr => pr.buy_date) = [0] ∧
    backtest_strategy [⟨1, 0, none, none⟩] [⟨1, 0, 10⟩] 90 =
      [⟨0, FV.nan, FV.nan⟩] := by decide

/-- Running products of a rational list, seeded at `acc` (the pure content
of `cumprod` on actual values). -/
def compoundQ (acc : ℚ) : List ℚ → List ℚ
  | [] => []
  | x :: rest => (acc * x) :: compoundQ (acc * x) rest

theorem compoundQ_length (l : List ℚ) : ∀ acc : ℚ,
    (compoundQ acc l).length = l.length := by
  induction l with
  | nil => intro acc; rfl
  | cons x rest ih =>
    intro acc
    unfold compoundQ
    rw [List.length_cons, List.length_cons, ih]

/-- The `k`-th running product is the fold of the first `k+1` factors. -/
theorem compoundQ_get? (l : List ℚ) : ∀ (acc : ℚ) (k : ℕ), k < l.length →
    (compoundQ acc l).get? k =
      some ((l.take (k + 1)).foldl (fun b x => b * x) acc) := by
  induction l with
  | nil => intro acc k hk; simp at hk
  | cons x rest ih =>
    intro acc k hk
    cases k with
    | zero => rfl
    | succ n =>
      show (compoundQ (acc * x) rest).get? n = _
      rw [ih (acc * x) n (by simpa using hk)]
      rfl

/-- On a list of actual values, the skip-NaN cumulative product is exactly
the running rational product. -/
theorem cumprodSkip_vals (l : List ℚ) : ∀ acc : ℚ,
    cumprodSkip (FV.val acc) (l.map (fun x => FV.val x)) =
      (compoundQ acc l).map FV.val := by
  induction l with
  | nil => intro acc; rfl
  | cons x rest ih =>
    intro acc
    show cumprodSkip (FV.val acc) (FV.val x :: rest.map (fun x => FV.val x)) = _
    unfold cumprodSkip
    rw [if_neg (by simp [FV.isNan])]
    show ((FV.val acc).mul (FV.val x)) ::
        cumprodSkip ((FV.val acc).mul (FV.val x)) (rest.map (fun x => FV.val x)) = _
    rw [show (FV.val acc).mul (FV.val x) = FV.val (acc * x) from rfl, ih (acc * x)]
    rfl

/-- C7: when every portfolio return is an actual value `r_i`, the output's
buy dates are chronological (strictly increasing) and the cumulative cell
at the `k`-th buy date is the compounded product of `(1 + r_i)` over the
first `k+1` returns, minus 1. -/
theorem backtest_cum_compounds (sel : List SelRow) (price : List PriceRow)
    (hold : ℤ) (rs : List ℚ)
    (hret : (backtest_strategy sel price hold).map (fun pr => pr.ret) =
      rs.map FV.val) :
    ((backtest_strategy sel price hold).map (fun pr => pr.buy_date)).Pairwise (· < ·) ∧
    ∀ (k : ℕ) (pr : PortRow),
      (backtest_strategy sel price hold).get? k = some pr →
      pr.cum = FV.val ((rs.take (k + 1)).foldl (fun a x => a * (1 + x)) 1 - 1) := by
  have hcols := backtestColumns sel price hold
  constructor
  · rw [hcols.1]
    exact backtestDates_strict_sorted _
  · have hsnd : (backtestPort price (backtestAssignDates hold sel)).map (·.2) =
        rs.map FV.val := hcols.2.1.symm.trans hret
    have hfac : (backtestPort price (backtestAssignDates hold sel)).map
        (fun p => (FV.val 1).add p.2) =
        (rs.map (fun x => 1 + x)).map (fun x => FV.val x) := by
      have h1 : (backtestPort price (backtestAssignDates hold sel)).map
          (fun p => (FV.val 1).add p.2) =
          ((backtestPort price (backtestAssignDates hold sel)).map (·.2)).map
            (fun v => (FV.val 1).add v) := by
        rw [List.map_map]
        rfl
      rw [h1, hsnd, List.map_map, List.map_map]
      rfl
    have hcum : (backtest_strategy sel price hold).map (fun pr => pr.cum) =
        (compoundQ 1 (rs.map (fun x => 1 + x))).map (fun c => FV.val (c - 1)) := by
      rw [hcols.2.2, hfac, cumprodSkip_vals, List.map_map]
      have : ((fun c => c.sub (FV.val 1)) ∘ FV.val) = (fun c : ℚ => FV.val (c - 1)) := by
        funext c
        show FV.val (c + -1) = FV.val (c - 1)
        rw [sub_eq_add_neg]
      rw [this]
    intro k pr hk
    have h1 : ((backtest_strategy sel price hold).map (fun pr => pr.cum)).get? k =
        some pr.cum := by
      rw [List.get?_map, hk]
      rfl
    rw [hcum, List.get?_map] at h1
    have hklt : k < rs.length := by
      have h2 : k < (backtest_strategy sel price hold).length := by
        rcases List.get?_eq_some.mp hk with ⟨hlt, _⟩
        exact hlt
      have hlen2 : (backtest_strategy sel price hold).length = rs.length := by
        have := congrArg List.length hret
        simpa using this
      omega
    rw [compoundQ_get? (rs.map (fun x => 1 + x)) 1 k (by simpa using hklt)] at h1
    have h2 := (Option.some.inj h1).symm
    rw [h2, ← List.map_take, List.foldl_map]

/-- Three one-position buy dates engineered to return 10%, -5% and 20%. -/
def csel7 : List SelRow :=
  [⟨1, 0, none, none⟩, ⟨1, 10, none, none⟩, ⟨1, 20, none, none⟩]

def cprice7 : List PriceRow :=
  [⟨1, 0, 10⟩, ⟨1, 5, 11⟩, ⟨1, 10, 20⟩, ⟨1, 15, 19⟩, ⟨1, 20, 10⟩, ⟨1, 25, 12⟩]

/-- C7 witness: with portfolio returns `[0.1, -0.05, 0.2]` the engine's
cumulative column is `[0.1, 0.045, 0.254]` (exactly, in `ℚ`), and each
entry is the compounded product minus 1. -/
theorem backtest_cum_compounds_w :
    (((backtest_strategy csel7 cprice7 5).map (fun pr => pr.buy_date)).Pairwise (· < ·) ∧
      ∀ (k : ℕ) (pr : PortRow),
        (backtest_strategy csel7 cprice7 5).get? k = some pr →
        pr.cum = FV.val ((([1/10, -(1/20), 1/5] : List ℚ).take (k + 1)).foldl
          (fun a x => a * (1 + x)) 1 - 1)) ∧
    (backtest_strategy csel7 cprice7 5).map (fun pr => pr.ret) =
      [FV.val (1/10), FV.val (-(1/20)), FV.val (1/5)] ∧
    (backtest_strategy csel7 cprice7 5).map (fun pr => pr.cum) =
      [FV.val (1/10), FV.val (9/200), FV.val (127/500)] :=
  ⟨backtest_cum_compounds csel7 cprice7 5 [1/10, -(1/20), 1/5] (by decide),
   by decide, by decide⟩

/-- Equal maps over the same list agree pointwise on its members. -/
theorem map_eq_map_pointwise {α β : Type} (f g : α → β) :
    ∀ l : List α, l.map f = l.map g → ∀ a ∈ l, f a = g a := by
  intro l
  induction l with
  | nil =>
    intro _ a ha
    simp at ha
  | cons x t ih =>
    intro h a ha
    rw [List.map_cons, List.map_cons] at h
    injection h with h1 h2
    rcases List.mem_cons.mp ha with rfl | hat
    · exact h1
    · exact ih h2 a hat

/-- C9 (amended): the Backtest Engine mutates its selected-stocks input —
the post-call state of the caller's table keeps each row's own columns but
has `buy_date`/`sell_date` assigned; whenever any input row did not already
carry exactly those values (in particular any table fresh from the
Strategy Selector, whose rows have no such columns), the post-call table
differs from the input. -/
theorem backtest_mutates_selected_input (sel : List SelRow) (hold : ℤ) :
    (backtestAssignDates hold sel).map (fun r => (r.Stkcd, r.Trddt)) =
      sel.map (fun r => (r.Stkcd, r.Trddt)) ∧
    (∀ r ∈ backtestAssignDates hold sel,
      r.buy_date = some r.Trddt ∧ r.sell_date = some (r.Trddt + hold)) ∧
    ((∃ r ∈ sel, r.buy_date ≠ some r.Trddt ∨ r.sell_date ≠ some (r.Trddt + hold)) →
      backtestAssignDates hold sel ≠ sel) := by
  refine ⟨?_, ?_, ?_⟩
  · unfold backtestAssignDates
    rw [List.map_map]
    rfl
  · intro r hr
    simp only [backtestAssignDates] at hr
    rcases List.mem_map.mp hr with ⟨r0, _, hr0⟩
    subst hr0
    exact ⟨rfl, rfl⟩
  · rintro ⟨r, hrmem, hneq⟩ heq
    have hbuy := congrArg (List.map (fun x : SelRow => x.buy_date)) heq
    have hsell := congrArg (List.map (fun x : SelRow => x.sell_date)) heq
    simp only [backtestAssignDates, List.map_map] at hbuy hsell
    rcases hneq with h | h
    · exact h (map_eq_map_pointwise _ _ sel hbuy r hrmem).symm
    · exact h (map_eq_map_pointwise _ _ sel hsell r hrmem).symm

/-- A one-row selector output (no buy/sell columns yet). -/
def csel9 : List SelRow := [⟨1, 2, none, none⟩]

/-- C9 witness: instantiating the mutation characterisation on the concrete
table. -/
theorem backtest_mutates_selected_input_w :
    (backtestAssignDates 90 csel9).map (fun r => (r.Stkcd, r.Trddt)) =
      csel9.map (fun r => (r.Stkcd, r.Trddt)) ∧
    (∀ r ∈ backtestAssignDates 90 csel9,
      r.buy_date = some r.Trddt ∧ r.sell_date = some (r.Trddt + 90)) ∧
    ((∃ r ∈ csel9, r.buy_date ≠ some r.Trddt ∨ r.sell_date ≠ some (r.Trddt + 90)) →
      backtestAssignDates 90 csel9 ≠ csel9) :=
  backtest_mutates_selected_input csel9 90

/-- C9 counterexample: after `backtest_strategy` runs, the caller's
selected-stocks table is no longer equal to what the Strategy Selector
produced — the engine's in-place column assignment changed it, so "no stage
mutates a table it did not produce" is false. -/
theorem stage_no_mutation_cex :
    backtestAssignDates 90 [⟨1, 0, none, none⟩] ≠ [⟨1, 0, none, none⟩] := by
  decide
